import Mathlib

/-!
Verification of the Time Block Resolution Engine of the mission42-timesheet
repository (a shallow embedding of `app/utils/time_utils.py`,
`app/utils/priority.py` and `app/services/time_block_processor.py`).

Modelling conventions:
* A Python `datetime` (naive, Gregorian) is an integer count of microseconds
  since an epoch placed on a Monday at 00:00:00.  All operations the code
  performs on datetimes (`timedelta` arithmetic, `weekday()`, the
  `hour`/`minute` attributes, `replace(...)`) are linear-time operations, so
  this representation is exact.  `/` and `%` on `ℤ` are Euclidean
  (nonnegative remainder), matching Python's `//` and `%` semantics that
  underlie the datetime field extractions.
* Python floats are modelled as rationals (`ℚ`).  Python's built-in `round`
  rounds half to even; `math.ceil` is the exact ceiling; building a
  `timedelta` from a float number of hours rounds the value to whole
  microseconds, half to even.
* Code that can raise is modelled in `Except String`.
-/

/-- Microseconds per day. -/
def usPerDay : ℤ := 86400000000

/-- Microseconds per hour. -/
def usPerHour : ℤ := 3600000000

/-- Microseconds per minute. -/
def usPerMinute : ℤ := 60000000

/-- Microseconds per second. -/
def usPerSecond : ℤ := 1000000

/-- Python's built-in `round` on a float, modelled on `ℚ`: round half to even. -/
def pyRound (q : ℚ) : ℤ :=
  if q - ⌊q⌋ < 1/2 then ⌊q⌋
  else if 1/2 < q - ⌊q⌋ then ⌊q⌋ + 1
  else if 2 ∣ ⌊q⌋ then ⌊q⌋ else ⌊q⌋ + 1

/-- Python's `math.ceil` on a float, modelled on `ℚ`. -/
def pyCeil (q : ℚ) : ℤ := ⌈q⌉

/-- `timedelta(hours=h)` for a float `h`, in microseconds: Python rounds a
fractional-microsecond `timedelta` to whole microseconds, half to even. -/
def tdHours (h : ℚ) : ℤ := pyRound (h * 3600000000)

/-- Midnight of the calendar day containing `t` (what `t.replace(hour=0, ...)`
starts from). -/
def dayStart (t : ℤ) : ℤ := t - t % usPerDay

/-- Python's `datetime.weekday()`: 0 = Monday .. 6 = Sunday (the epoch of the
embedding is a Monday). -/
def weekday (t : ℤ) : ℤ := (t / usPerDay) % 7

/-- `t.hour`: the hour-of-day attribute. -/
def hourOf (t : ℤ) : ℤ := (t % usPerDay) / usPerHour

/-- `t.minute`: the minute attribute. -/
def minuteOf (t : ℤ) : ℤ := ((t % usPerDay) % usPerHour) / usPerMinute

/-- `t.replace(hour=h, minute=m, second=s, microsecond=u)`. -/
def replaceHMSU (t h m s u : ℤ) : ℤ :=
  dayStart t + h * usPerHour + m * usPerMinute + s * usPerSecond + u

/-- `t.replace(hour=h, minute=m, second=s)` — the microsecond attribute is
kept (the processor's fill-up code does not reset it). -/
def replaceHMS (t h m s : ℤ) : ℤ :=
  dayStart t + h * usPerHour + m * usPerMinute + s * usPerSecond + t % usPerSecond

/-- Rounding modes of `app/utils/time_utils.py` (`RoundingMode`). -/
inductive RoundingMode where
  | up
  | nearest
deriving DecidableEq

/-- `round_to_half_hour` from `app/utils/time_utils.py`: round a duration in
minutes to 0.5-hour increments, returning hours. -/
def round_to_half_hour (minutes : ℚ) (mode : RoundingMode) : ℚ :=
  let hours := minutes / 60
  match mode with
  | .up => (pyCeil (hours * 2) : ℚ) / 2
  | .nearest => (pyRound (hours * 2) : ℚ) / 2

/-- `get_work_week_start` from `app/utils/time_utils.py`, after the `day_map`
name lookup and the `start_time` split: `startWeekday` stands for
`day_map[start_day.lower()]` and `h`, `m` for the parsed `HH:MM` parts. -/
def get_work_week_start (reference_date startWeekday h m : ℤ) : ℤ :=
  let current_weekday := weekday reference_date
  let current_hour := hourOf reference_date
  let current_minute := minuteOf reference_date
  let days_back :=
    if startWeekday ≤ current_weekday then current_weekday - startWeekday
    else 7 - (startWeekday - current_weekday)
  let days_back :=
    if days_back = 0 ∧ current_hour * 60 + current_minute < h * 60 + m then 7
    else days_back
  replaceHMSU (reference_date - days_back * usPerDay) h m 0 0

/-- The `days_forward` computation inside `get_work_week_end`. -/
def days_forward (start_weekday end_weekday : ℤ) : ℤ :=
  if start_weekday < end_weekday then end_weekday - start_weekday
  else 7 - start_weekday + end_weekday

/-- `get_work_week_end` from `app/utils/time_utils.py`, after the `day_map`
lookup and the `end_time` split: `endWeekday` stands for
`day_map[end_day.lower()]` and `h`, `m` for the parsed `HH:MM` parts. -/
def get_work_week_end (week_start endWeekday h m : ℤ) : ℤ :=
  let start_weekday := weekday week_start
  replaceHMSU (week_start + days_forward start_weekday endWeekday * usPerDay) h m 0 0

/-- The work-day collection loop of the `DISTRIBUTED` branch of
`TimeBlockProcessor._create_fill_up_blocks`: `current_day` starts at
`week_start` and advances a day at a time while `current_day < week_end`. -/
def fillWorkDays (current_day week_end : ℤ) : List ℤ :=
  if current_day < week_end then
    current_day :: fillWorkDays (current_day + usPerDay) week_end
  else []
termination_by (week_end - current_day).toNat
decreasing_by
  have : usPerDay = 86400000000 := rfl
  omega

/-! ## `app/utils/priority.py` -/

/-- A value stored in an event's or block's `metadata` dict. -/
inductive MetaVal where
  | b : Bool → MetaVal
  | q : ℚ → MetaVal
  | s : String → MetaVal
  | ls : List String → MetaVal
deriving DecidableEq

/-- A Python dict used as opaque metadata: insertion-ordered key/value pairs. -/
abbrev Metadata : Type := List (String × MetaVal)

/-- `SOURCE_PRIORITIES`: the fixed source-name → priority table
(`SourcePriority` values). -/
def SOURCE_PRIORITIES : List (String × ℤ) :=
  [("wakatime", 100), ("calendar", 80), ("gmail", 60),
   ("github", 40), ("cloud_events", 40), ("auto_fill", 0)]

/-- `get_source_priority`: look the source up in `SOURCE_PRIORITIES`; an
unknown source raises `ValueError`. -/
def get_source_priority (source : String) : Except String ℤ :=
  match SOURCE_PRIORITIES.find? (fun p => p.1 == source) with
  | some p => .ok p.2
  | none => .error ("Unknown source: " ++ source)

/-- `times_overlap`: two ranges overlap iff `start1 < end2 and start2 < end1`. -/
def times_overlap (start1 end1 start2 end2 : ℤ) : Bool :=
  start1 < end2 && start2 < end1

/-- The `TimeBlock` class.  The Python field `end` is called `endT` here
(`end` is a Lean keyword); `priority` is the value `__init__` computed from
the source. -/
structure TimeBlock where
  start : ℤ
  endT : ℤ
  source : String
  description : String
  priority : ℤ
  metadata : Metadata
deriving DecidableEq

/-- `TimeBlock.__init__`: constructing a block looks the priority up from the
source and raises for an unknown source. -/
def mkTimeBlock (start endT : ℤ) (source description : String)
    (metadata : Metadata) : Except String TimeBlock :=
  (get_source_priority source).map
    (fun p => ⟨start, endT, source, description, p, metadata⟩)

/-- `TimeBlock.overlaps_with`. -/
def TimeBlock.overlaps_with (self other : TimeBlock) : Bool :=
  times_overlap self.start self.endT other.start other.endT

/-- The sort relation of `sorted(blocks, key=lambda b: (b.start, -b.priority))`:
lexicographic on `(start, -priority)`. -/
def blockLE (a b : TimeBlock) : Prop :=
  a.start < b.start ∨ (a.start = b.start ∧ b.priority ≤ a.priority)

instance : DecidableRel blockLE := fun a b => by unfold blockLE; infer_instance

instance : IsTotal TimeBlock blockLE :=
  ⟨fun a b => by unfold blockLE; omega⟩

instance : IsTrans TimeBlock blockLE :=
  ⟨fun a b c hab hbc => by unfold blockLE at *; omega⟩

/-- The sort relation of `sorted(result, key=lambda b: b.start)`. -/
def blockStartLE (a b : TimeBlock) : Prop := a.start ≤ b.start

instance : DecidableRel blockStartLE := fun a b => by unfold blockStartLE; infer_instance

instance : IsTotal TimeBlock blockStartLE :=
  ⟨fun a b => by unfold blockStartLE; omega⟩

instance : IsTrans TimeBlock blockStartLE :=
  ⟨fun a b c hab hbc => by unfold blockStartLE at *; omega⟩

/-- `sorted(blocks, key=lambda b: (b.start, -b.priority))` — Python's sort is
stable, as is insertion sort, so any stable sort under the same total
preorder produces the same list. -/
def sortByStartPrio (blocks : List TimeBlock) : List TimeBlock :=
  List.insertionSort blockLE blocks

/-- `sorted(result, key=lambda b: b.start)`. -/
def sortByStart (blocks : List TimeBlock) : List TimeBlock :=
  List.insertionSort blockStartLE blocks

/-- One iteration of the `priority` strategy's outer loop: scan `result` for
the first block overlapping `block`; on an overlap keep the higher-priority
one of the pair (`list.remove` + `append` when the candidate wins), otherwise
append the candidate. -/
def resolveStep (result : List TimeBlock) (block : TimeBlock) : List TimeBlock :=
  match result.find? (fun existing => block.overlaps_with existing) with
  | none => result ++ [block]
  | some existing =>
      if existing.priority < block.priority then result.erase existing ++ [block]
      else result

/-- `merge_blocks`: merge overlapping blocks into one — earliest start, latest
end, the (first) highest-priority member's source, `" | "`-joined
`"source: description"` strings, and `merged_from` metadata.  Raises on an
empty list; a singleton is returned unchanged. -/
def merge_blocks (blocks : List TimeBlock) : Except String TimeBlock :=
  match blocks with
  | [] => .error "Cannot merge empty list of blocks"
  | b :: rest =>
    if rest.isEmpty then .ok b
    else
      let start := rest.foldl (fun acc x => min acc x.start) b.start
      let endT := rest.foldl (fun acc x => max acc x.endT) b.endT
      let highest := rest.foldl (fun best x => if best.priority < x.priority then x else best) b
      let descriptions := blocks.map (fun x => x.source ++ ": " ++ x.description)
      let combined := String.intercalate " | " descriptions
      mkTimeBlock start endT highest.source combined
        [("merged_from", MetaVal.ls (blocks.map (fun x => x.source)))]

/-- The group-emission step of the `combine` strategy: a singleton group is
passed through, a larger group is merged. -/
def emitGroup (group : List TimeBlock) : Except String TimeBlock :=
  match group with
  | [b] => .ok b
  | g => merge_blocks g

/-- The scanning loop of the `combine` strategy: a block joins the current
group when it overlaps any member, otherwise the group is emitted and a new
group starts with that block. -/
def combineGo (current_group : List TimeBlock) :
    List TimeBlock → Except String (List TimeBlock)
  | [] => do
      let m ← emitGroup current_group
      pure [m]
  | block :: rest =>
      if current_group.any (fun b => block.overlaps_with b) then
        combineGo (current_group ++ [block]) rest
      else do
        let m ← emitGroup current_group
        let out ← combineGo [block] rest
        pure (m :: out)

/-- `resolve_overlaps` from `app/utils/priority.py`: resolve overlapping
blocks by the named strategy (`priority`, `show_both` or `combine`); an
unknown strategy raises `ValueError`. -/
def resolve_overlaps (blocks : List TimeBlock) (strategy : String) :
    Except String (List TimeBlock) :=
  if blocks.isEmpty then .ok []
  else
    let sorted_blocks := sortByStartPrio blocks
    if strategy = "show_both" then .ok sorted_blocks
    else if strategy = "priority" then
      .ok (sortByStart (sorted_blocks.foldl resolveStep []))
    else if strategy = "combine" then
      match sorted_blocks with
      | [] => .ok []
      | b0 :: rest => combineGo [b0] rest
    else .error ("Unknown strategy: " ++ strategy)

/-! ## `app/models/settings.py` (the fields the processor consumes) -/

/-- `DayOfWeek` (settings enum, string valued in Python). -/
inductive DayOfWeek where
  | monday | tuesday | wednesday | thursday | friday | saturday | sunday
deriving DecidableEq

/-- The weekday number `day_map[d.value]` that `time_utils`'s `day_map` dict
assigns to each settings day value. -/
def DayOfWeek.dayNumber : DayOfWeek → ℤ
  | .monday => 0
  | .tuesday => 1
  | .wednesday => 2
  | .thursday => 3
  | .friday => 4
  | .saturday => 5
  | .sunday => 6

/-- `FillUpTopicMode` (settings enum). -/
inductive FillUpTopicMode where
  | manual | auto | generic
deriving DecidableEq

/-- `FillUpDistribution` (settings enum). -/
inductive FillUpDistribution where
  | end_of_week | distributed | empty_slots
deriving DecidableEq

/-- `OverlapHandling` (settings enum). -/
inductive OverlapHandling where
  | priority | show_both | combine
deriving DecidableEq

/-- The `CoreSettings` fields the processor reads.  The Python
`work_week_start_time` / `work_week_end_time` fields are `"HH:MM"` strings
validated against `^([01]\d|2[0-3]):([0-5]\d)$`; they are modelled here by
their parsed hour/minute parts. -/
structure CoreSettings where
  work_week_start_day : DayOfWeek
  work_week_start_hour : ℤ
  work_week_start_minute : ℤ
  work_week_end_day : DayOfWeek
  work_week_end_hour : ℤ
  work_week_end_minute : ℤ
  target_hours_per_week : ℚ
  auto_fill_enabled : Bool
deriving DecidableEq

/-- The `ProcessingSettings` fields the processor reads. -/
structure ProcessingSettings where
  rounding_mode : RoundingMode
  group_same_activities : Bool
  fill_up_topic_mode : FillUpTopicMode
  fill_up_default_topic : String
  fill_up_distribution : FillUpDistribution
  overlap_handling : OverlapHandling
deriving DecidableEq

/-- The `Settings` sections the processor reads. -/
structure Settings where
  core : CoreSettings
  processing : ProcessingSettings
deriving DecidableEq

/-! ## `app/services/time_block_processor.py` -/

/-- A raw event record as the processor reads it.  `timestamp` is the parsed
timestamp: `none` models a value that is not a datetime and fails the string
parse (such an event is skipped). -/
structure RawEvent where
  source : String
  timestamp : Option ℤ
  duration_minutes : ℚ
  description : String
  metadata : Metadata
deriving DecidableEq

/-- `ProcessingResult`. -/
structure ProcessingResult where
  success : Bool
  week_start : Option ℤ := none
  week_end : Option ℤ := none
  raw_events_count : ℕ := 0
  time_blocks_created : ℕ := 0
  total_hours : ℚ := 0
  hours_filled : ℚ := 0
  error : Option String := none
deriving DecidableEq

/-- `TimeBlockProcessor.convert_to_time_blocks`: parse each event's
timestamp (failures are skipped), skip non-positive durations, round the
duration per the configured mode, and build a `TimeBlock` ending
`timedelta(hours=rounded_hours)` after the timestamp. -/
def convert_to_time_blocks (raw_events : List RawEvent) (settings : Settings) :
    Except String (List TimeBlock) :=
  match raw_events with
  | [] => .ok []
  | event :: rest =>
    match event.timestamp with
    | none => convert_to_time_blocks rest settings
    | some timestamp =>
      if event.duration_minutes ≤ 0 then convert_to_time_blocks rest settings
      else do
        let rounded_hours :=
          round_to_half_hour event.duration_minutes settings.processing.rounding_mode
        let end_time := timestamp + tdHours rounded_hours
        let block ← mkTimeBlock timestamp end_time event.source event.description
          event.metadata
        let blocks ← convert_to_time_blocks rest settings
        pure (block :: blocks)

/-- `TimeBlockProcessor.resolve_overlapping_blocks`: map the settings enum to
the strategy string and delegate to `resolve_overlaps`. -/
def resolve_overlapping_blocks (time_blocks : List TimeBlock) (settings : Settings) :
    Except String (List TimeBlock) :=
  let strategy :=
    match settings.processing.overlap_handling with
    | .priority => "priority"
    | .show_both => "show_both"
    | .combine => "combine"
  resolve_overlaps time_blocks strategy

/-- `dict.__setitem__` on an insertion-ordered dict: an existing key is
updated in place, a new key is appended. -/
def dictSet (d : Metadata) (k : String) (v : MetaVal) : Metadata :=
  if d.any (fun p => p.1 == k) then
    d.map (fun p => if p.1 == k then (k, v) else p)
  else d ++ [(k, v)]

/-- `dict.update`: later entries overwrite earlier keys. -/
def dictUpdate (d u : Metadata) : Metadata :=
  u.foldl (fun acc p => dictSet acc p.1 p.2) d

/-- The grouping key of `group_activities`: `(start date, source,
description)`.  The ISO date string is injective on dates, so the calendar-day
index stands in for it. -/
def groupKey (b : TimeBlock) : ℤ × String × String :=
  (b.start / usPerDay, b.source, b.description)

/-- Building `defaultdict(list)` keyed by `groupKey` in insertion order. -/
def groupInsert (groups : List ((ℤ × String × String) × List TimeBlock))
    (b : TimeBlock) : List ((ℤ × String × String) × List TimeBlock) :=
  if groups.any (fun g => g.1 == groupKey b) then
    groups.map (fun g => if g.1 == groupKey b then (g.1, g.2 ++ [b]) else g)
  else groups ++ [(groupKey b, [b])]

/-- Merging one group in `group_activities`: keep the first member's source
and description, start at the earliest member start, end after the summed
duration, union the metadata. -/
def mergeGroup (first : TimeBlock) (blocks : List TimeBlock) :
    Except String TimeBlock :=
  let total_duration := (blocks.map (fun b => ((b.endT - b.start : ℤ) : ℚ) / 3600000000)).sum
  let earliest_start := (blocks.map (fun b => b.start)).foldl min first.start
  let merged_end := earliest_start + tdHours total_duration
  let merged_metadata := blocks.foldl (fun acc b => dictUpdate acc b.metadata) []
  mkTimeBlock earliest_start merged_end first.source first.description merged_metadata

/-- `TimeBlockProcessor.group_activities`: when enabled, group blocks sharing
`(date, source, description)` and merge each group; singletons pass through.
Output sorted ascending by start. -/
def group_activities (time_blocks : List TimeBlock) (settings : Settings) :
    Except String (List TimeBlock) :=
  if ¬ settings.processing.group_same_activities then .ok time_blocks
  else do
    let grouped := time_blocks.foldl groupInsert []
    let merged_blocks ← grouped.mapM (fun g =>
      match g.2 with
      | [b] => pure b
      | b :: rest => mergeGroup b (b :: rest)
      | [] => pure ⟨0, 0, "", "", 0, []⟩)
    pure (sortByStart merged_blocks)

/-- `TimeBlockProcessor.calculate_week_hours`: sum of block durations in
hours. -/
def calculate_week_hours (time_blocks : List TimeBlock) : ℚ :=
  (time_blocks.map (fun b => ((b.endT - b.start : ℤ) : ℚ) / 3600000000)).sum

/-- `TimeBlockProcessor._determine_fill_up_topic`. -/
def determine_fill_up_topic (time_blocks : List TimeBlock) (settings : Settings) :
    String :=
  match settings.processing.fill_up_topic_mode with
  | .manual => settings.processing.fill_up_default_topic
  | .auto =>
    if time_blocks.isEmpty then settings.processing.fill_up_default_topic
    else
      let description_counts := time_blocks.foldl
        (fun (acc : List (String × ℚ)) b =>
          let d := ((b.endT - b.start : ℤ) : ℚ) / 3600000000
          if acc.any (fun p => p.1 == b.description) then
            acc.map (fun p => if p.1 == b.description then (p.1, p.2 + d) else p)
          else acc ++ [(b.description, d)]) []
      match description_counts with
      | [] => settings.processing.fill_up_default_topic
      | c :: cs => (cs.foldl (fun best p => if best.2 < p.2 then p else best) c).1
  | .generic => settings.processing.fill_up_default_topic

/-- `TimeBlockProcessor._create_fill_up_blocks`: synthesize fill blocks per
the configured distribution. -/
def create_fill_up_blocks (hours_to_fill : ℚ) (week_start week_end : ℤ)
    (topic : String) (settings : Settings) : Except String (List TimeBlock) :=
  match settings.processing.fill_up_distribution with
  | .end_of_week =>
    let saturday := week_end - 6 * usPerHour
    let fill_start := replaceHMS saturday 12 0 0
    let fill_end := fill_start + tdHours hours_to_fill
    ( mkTimeBlock fill_start fill_end "auto_fill" ("Development: " ++ topic)
        [("auto_generated", .b true), ("fill_hours", .q hours_to_fill)]).map
      (fun b => [b])
  | .distributed =>
    let work_days := fillWorkDays week_start week_end
    if work_days.length = 0 then .error "float division by zero"
    else
      let hours_per_day := hours_to_fill / work_days.length
      work_days.mapM (fun day =>
        let fill_start := replaceHMS day 17 0 0
        let fill_end := fill_start + tdHours hours_per_day
        mkTimeBlock fill_start fill_end "auto_fill" ("Development: " ++ topic)
          [("auto_generated", .b true), ("fill_hours", .q hours_per_day),
           ("distributed", .b true)])
  | .empty_slots =>
    let fill_start := week_end - tdHours hours_to_fill
    let fill_end := week_end
    ( mkTimeBlock fill_start fill_end "auto_fill" ("Development: " ++ topic)
        [("auto_generated", .b true), ("fill_hours", .q hours_to_fill)]).map
      (fun b => [b])

/-- `TimeBlockProcessor.auto_fill_to_target`: when auto-fill is enabled and
the current total is below the target, append fill blocks covering the
shortfall; otherwise return the blocks unchanged with `0.0` hours filled. -/
def auto_fill_to_target (time_blocks : List TimeBlock) (week_start week_end : ℤ)
    (settings : Settings) : Except String (List TimeBlock × ℚ) :=
  if ¬ settings.core.auto_fill_enabled then .ok (time_blocks, 0)
  else
    let current_hours := calculate_week_hours time_blocks
    let target_hours := settings.core.target_hours_per_week
    if target_hours ≤ current_hours then .ok (time_blocks, 0)
    else do
      let hours_to_fill := target_hours - current_hours
      let fill_up_topic := determine_fill_up_topic time_blocks settings
      let fill_blocks ← create_fill_up_blocks hours_to_fill week_start week_end
        fill_up_topic settings
      pure (time_blocks ++ fill_blocks, hours_to_fill)

/-- `TimeBlockProcessor.process_week`: the pipeline, with the raw-event fetch
abstracted by the `raw_events` argument and persistence modelled as the
always-acknowledging store (`save_time_blocks` returns the block count).  Any
exception is caught at the boundary and becomes a failure result. -/
def process_week (reference_date : ℤ) (raw_events : List RawEvent)
    (settings : Settings) : ProcessingResult :=
  let week_start := get_work_week_start reference_date
    settings.core.work_week_start_day.dayNumber
    settings.core.work_week_start_hour settings.core.work_week_start_minute
  let week_end := get_work_week_end week_start
    settings.core.work_week_end_day.dayNumber
    settings.core.work_week_end_hour settings.core.work_week_end_minute
  let run : Except String ProcessingResult := do
    let time_blocks ← convert_to_time_blocks raw_events settings
    let time_blocks ← resolve_overlapping_blocks time_blocks settings
    let time_blocks ← group_activities time_blocks settings
    let (time_blocks, hours_filled) ← auto_fill_to_target time_blocks
      week_start week_end settings
    let total_hours := calculate_week_hours time_blocks
    let blocks_saved := time_blocks.length
    pure { success := true, week_start := some week_start,
           week_end := some week_end, raw_events_count := raw_events.length,
           time_blocks_created := blocks_saved, total_hours := total_hours,
           hours_filled := hours_filled }
  match run with
  | .ok r => r
  | .error e => { success := false, error := some e }

/-- A concrete `CoreSettings` value: the documented defaults (Monday 18:00 →
Saturday 18:00, 40 target hours, auto-fill enabled). -/
def exampleCore : CoreSettings :=
  ⟨.monday, 18, 0, .saturday, 18, 0, 40, true⟩

/-- Concrete settings with `rounding_mode = NEAREST` and
`fill_up_distribution = end_of_week`. -/
def exampleSettingsNearest : Settings :=
  ⟨exampleCore, ⟨.nearest, false, .manual, "General", .end_of_week, .priority⟩⟩

/-- Concrete settings with `fill_up_distribution = empty_slots`. -/
def exampleSettingsEmptySlots : Settings :=
  ⟨exampleCore, ⟨.nearest, false, .manual, "General", .empty_slots, .priority⟩⟩

/-! ## Helper lemmas about the rounding primitives -/

theorem pyRound_eq_of {q : ℚ} {z : ℤ} (h1 : (z : ℚ) - 1/2 < q)
    (h2 : q < (z : ℚ) + 1/2) : pyRound q = z := by
  have hl : z - 1 ≤ ⌊q⌋ := Int.le_floor.mpr (by push_cast; linarith)
  have hu : ⌊q⌋ ≤ z := by
    have h5 : (⌊q⌋ : ℚ) ≤ q := Int.floor_le q
    have h6 : (⌊q⌋ : ℚ) < (z : ℚ) + 1 := by linarith
    exact_mod_cast Int.lt_add_one_iff.mp (by exact_mod_cast h6)
  have hfl : ⌊q⌋ = z ∨ ⌊q⌋ = z - 1 := by omega
  unfold pyRound
  rcases hfl with h | h
  · rw [h, if_pos (by linarith)]
  · have hq : (1:ℚ)/2 < q - (⌊q⌋ : ℚ) := by rw [h]; push_cast; linarith
    rw [if_neg (by linarith), if_pos hq, h]
    ring

theorem pyRound_tie {q : ℚ} {z : ℤ} (h : q = (z : ℚ) + 1/2) :
    pyRound q = if 2 ∣ z then z else z + 1 := by
  have hf : ⌊q⌋ = z := by
    rw [Int.floor_eq_iff, h]
    norm_num
  unfold pyRound
  rw [hf, h]
  norm_num

theorem pyRound_int (n : ℤ) : pyRound (n : ℚ) = n :=
  pyRound_eq_of (by linarith) (by linarith)

theorem pyCeil_eq_of {q : ℚ} {z : ℤ} (h1 : (z : ℚ) - 1 < q) (h2 : q ≤ (z : ℚ)) :
    pyCeil q = z := by
  unfold pyCeil
  rw [Int.ceil_eq_iff]
  exact ⟨h1, h2⟩

theorem pyRound_ge_one {q : ℚ} (hq : 1/2 < q) : 1 ≤ pyRound q := by
  have h0 : (0:ℤ) ≤ ⌊q⌋ := Int.le_floor.mpr (by push_cast; linarith)
  have hle : (⌊q⌋ : ℚ) ≤ q := Int.floor_le q
  unfold pyRound
  split_ifs with h1 h2 h3
  · -- the fractional part is below 1/2, so the floor itself is positive
    have hpos : (0:ℚ) < (⌊q⌋ : ℚ) := by linarith
    have hz : (0:ℤ) < ⌊q⌋ := by exact_mod_cast hpos
    omega
  · omega
  · -- tie at an even floor: the floor cannot be 0, else q = 1/2
    rcases Int.lt_or_le 0 ⌊q⌋ with hpos | hz
    · omega
    · have hq0 : ⌊q⌋ = 0 := le_antisymm hz h0
      have : q - (⌊q⌋ : ℚ) = 1/2 := by linarith
      rw [hq0] at this
      push_cast at this
      linarith
  · omega

theorem pyCeil_ge_one {q : ℚ} (hq : 0 < q) : 1 ≤ pyCeil q := by
  unfold pyCeil
  exact_mod_cast Int.ceil_pos.mpr hq

/-- `timedelta(hours=·)` is exact on a whole number of half hours. -/
theorem tdHours_half (z : ℤ) : tdHours ((z : ℚ) / 2) = z * 1800000000 := by
  unfold tdHours
  have h : (z : ℚ) / 2 * 3600000000 = ((z * 1800000000 : ℤ) : ℚ) := by
    push_cast; ring
  rw [h, pyRound_int]

/-- C5: the documented fixed points of `round_to_half_hour`: rounding UP, 35
minutes give 1.0 hours and 10 minutes give 0.5 hours; rounding NEAREST, 20
minutes give 0.5, 35 minutes give 0.5 and 45 minutes give 1.0 hours. -/
theorem round_to_half_hour_fixed_points_C5 :
    round_to_half_hour 35 .up = 1 ∧
    round_to_half_hour 10 .up = 0.5 ∧
    round_to_half_hour 20 .nearest = 0.5 ∧
    round_to_half_hour 35 .nearest = 0.5 ∧
    round_to_half_hour 45 .nearest = 1 := by
  have h35u : pyCeil ((35 : ℚ) / 60 * 2) = 2 := pyCeil_eq_of (by norm_num) (by norm_num)
  have h10u : pyCeil ((10 : ℚ) / 60 * 2) = 1 := pyCeil_eq_of (by norm_num) (by norm_num)
  have h20n : pyRound ((20 : ℚ) / 60 * 2) = 1 := pyRound_eq_of (by norm_num) (by norm_num)
  have h35n : pyRound ((35 : ℚ) / 60 * 2) = 1 := pyRound_eq_of (by norm_num) (by norm_num)
  have h45n : pyRound ((45 : ℚ) / 60 * 2) = 2 := by
    rw [pyRound_tie (z := 1) (by norm_num)]
    norm_num
  refine ⟨?_, ?_, ?_, ?_, ?_⟩ <;>
    simp only [round_to_half_hour, h35u, h10u, h20n, h35n, h45n] <;> norm_num

/-- C9: when auto-fill is disabled, or the current total already meets the
target, `auto_fill_to_target` returns the input blocks unchanged with `0.0`
hours filled. -/
theorem auto_fill_noop_C9 (time_blocks : List TimeBlock) (week_start week_end : ℤ)
    (settings : Settings)
    (h : settings.core.auto_fill_enabled = false ∨
      settings.core.target_hours_per_week ≤ calculate_week_hours time_blocks) :
    auto_fill_to_target time_blocks week_start week_end settings =
      .ok (time_blocks, 0) := by
  unfold auto_fill_to_target
  rcases h with h | h
  · rw [if_pos (by simp [h])]
  · by_cases he : settings.core.auto_fill_enabled
    · rw [if_neg (by simp [he]), if_pos h]
    · rw [if_pos (by simp [he])]

/-- C10: `get_work_week_end` always lands strictly after `week_start` (the
forward day offset is between 1 and 7), so the distributed fill strategy's
work-day list is non-empty and its per-day division is well-defined. -/
theorem week_end_after_week_start_C10 (week_start endWeekday h m : ℤ)
    (h1 : 0 ≤ endWeekday) (h2 : endWeekday ≤ 6) (h3 : 0 ≤ h) (h4 : h ≤ 23)
    (h5 : 0 ≤ m) (h6 : m ≤ 59) :
    (1 ≤ days_forward (weekday week_start) endWeekday ∧
      days_forward (weekday week_start) endWeekday ≤ 7) ∧
    week_start < get_work_week_end week_start endWeekday h m ∧
    fillWorkDays week_start (get_work_week_end week_start endWeekday h m) ≠ [] := by
  have hwd : 0 ≤ weekday week_start ∧ weekday week_start < 7 := by
    unfold weekday
    omega
  have hdf : 1 ≤ days_forward (weekday week_start) endWeekday ∧
      days_forward (weekday week_start) endWeekday ≤ 7 := by
    unfold days_forward
    split_ifs <;> omega
  have hlt : week_start < get_work_week_end week_start endWeekday h m := by
    simp only [get_work_week_end, replaceHMSU, dayStart, usPerDay, usPerHour,
      usPerMinute, usPerSecond] at hdf ⊢
    omega
  refine ⟨hdf, hlt, ?_⟩
  unfold fillWorkDays
  rw [if_pos hlt]
  simp

/-- C8: a reference falling on the configured start weekday but strictly
before the configured start time is sent to the aligned instant seven days
earlier, not to the same day. -/
theorem week_start_previous_week_C8 (reference_date s h m : ℤ)
    (hwd : weekday reference_date = s)
    (htod : hourOf reference_date * 60 + minuteOf reference_date < h * 60 + m)
    (h3 : 0 ≤ h) (h4 : h ≤ 23) (h5 : 0 ≤ m) (h6 : m ≤ 59) :
    get_work_week_start reference_date s h m =
      replaceHMSU reference_date h m 0 0 - 7 * usPerDay ∧
    get_work_week_start reference_date s h m < dayStart reference_date ∧
    weekday (get_work_week_start reference_date s h m) = s := by
  simp only [get_work_week_start, replaceHMSU, dayStart, weekday, hourOf,
    minuteOf, usPerDay, usPerHour, usPerMinute, usPerSecond] at hwd htod ⊢
  split_ifs <;> omega

/-- C7: `get_work_week_start` is idempotent — applied to its own output with
the same day and time arguments it returns that output unchanged. -/
theorem week_start_idempotent_C7 (reference_date s h m : ℤ)
    (hs0 : 0 ≤ s) (hs1 : s ≤ 6) (h3 : 0 ≤ h) (h4 : h ≤ 23)
    (h5 : 0 ≤ m) (h6 : m ≤ 59) :
    get_work_week_start (get_work_week_start reference_date s h m) s h m =
      get_work_week_start reference_date s h m := by
  simp only [get_work_week_start, replaceHMSU, dayStart, weekday, hourOf,
    minuteOf, usPerDay, usPerHour, usPerMinute, usPerSecond]
  split_ifs <;> omega

/-! ## Helper lemmas about the priority strategy -/

theorem overlaps_symm (a b : TimeBlock) : a.overlaps_with b = b.overlaps_with a := by
  unfold TimeBlock.overlaps_with times_overlap
  exact Bool.and_comm _ _

theorem find?_decomp {α : Type} {p : α → Bool} {l : List α} {a : α}
    (h : l.find? p = some a) :
    ∃ l₁ l₂, l = l₁ ++ a :: l₂ ∧ ∀ x ∈ l₁, p x = false := by
  induction l with
  | nil => simp [List.find?] at h
  | cons c t ih =>
    rw [List.find?_cons] at h
    cases hp : p c
    · rw [hp] at h
      obtain ⟨l₁, l₂, rfl, hall⟩ := ih h
      refine ⟨c :: l₁, l₂, rfl, ?_⟩
      intro x hx
      rcases List.mem_cons.mp hx with rfl | hx
      · exact hp
      · exact hall x hx
    · rw [hp] at h
      simp only [Option.some.injEq] at h
      subst h
      exact ⟨[], t, rfl, by simp⟩

theorem resolveStep_none (acc : List TimeBlock) (b : TimeBlock)
    (h : acc.find? (fun existing => b.overlaps_with existing) = none) :
    resolveStep acc b = acc ++ [b] := by
  unfold resolveStep
  rw [h]

theorem resolveStep_some (acc : List TimeBlock) (b e : TimeBlock)
    (h : acc.find? (fun existing => b.overlaps_with existing) = some e) :
    resolveStep acc b =
      if e.priority < b.priority then acc.erase e ++ [b] else acc := by
  unfold resolveStep
  rw [h]

theorem resolveStep_invariant (acc : List TimeBlock) (b : TimeBlock)
    (hpair : acc.Pairwise (fun x y => x.overlaps_with y = false))
    (hsort : acc.Pairwise blockStartLE)
    (hle : ∀ x ∈ acc, x.start ≤ b.start) :
    (resolveStep acc b).Pairwise (fun x y => x.overlaps_with y = false) ∧
    (resolveStep acc b).Pairwise blockStartLE ∧
    ∀ x ∈ resolveStep acc b, x ∈ acc ∨ x = b := by
  cases hfind : acc.find? (fun existing => b.overlaps_with existing) with
  | none =>
    rw [resolveStep_none acc b hfind]
    have hnone := List.find?_eq_none.mp hfind
    refine ⟨?_, ?_, ?_⟩
    · rw [List.pairwise_append]
      refine ⟨hpair, List.pairwise_singleton _ _, ?_⟩
      intro x hx y hy
      simp only [List.mem_singleton] at hy
      subst hy
      have hfalse := hnone x hx
      simp only [Bool.not_eq_true] at hfalse
      rw [overlaps_symm]
      exact hfalse
    · rw [List.pairwise_append]
      refine ⟨hsort, List.pairwise_singleton _ _, ?_⟩
      intro x hx y hy
      simp only [List.mem_singleton] at hy
      subst hy
      exact hle x hx
    · intro x hx
      rcases List.mem_append.mp hx with h | h
      · exact Or.inl h
      · exact Or.inr (by simpa using h)
  | some e =>
    rw [resolveStep_some acc b e hfind]
    have hov : b.overlaps_with e = true := List.find?_some hfind
    obtain ⟨l₁, l₂, hdec, hall⟩ := find?_decomp hfind
    subst hdec
    by_cases hp : e.priority < b.priority
    · rw [if_pos hp]
      have hne : e ∉ l₁ := fun hx => by
        have := hall e hx
        rw [this] at hov
        cases hov
      have herase : (l₁ ++ e :: l₂).erase e = l₁ ++ l₂ := by
        rw [List.erase_append_right _ hne, List.erase_cons_head]
      rw [herase]
      have hsub : (l₁ ++ l₂).Sublist (l₁ ++ e :: l₂) :=
        List.Sublist.append_left (List.sublist_cons_self e l₂) l₁
      -- blocks before `e` in the scan do not overlap the candidate
      have hl₁ : ∀ x ∈ l₁, x.overlaps_with b = false := by
        intro x hx
        rw [overlaps_symm]
        exact hall x hx
      -- blocks after `e`: the candidate starts at or after them, and they are
      -- disjoint from `e`, which the candidate reaches into — so they end
      -- before the candidate starts
      have hl₂ : ∀ x ∈ l₂, x.overlaps_with b = false := by
        intro x hx
        have hse : blockStartLE e x :=
          (List.pairwise_cons.mp (List.pairwise_append.mp hsort).2.1).1 x hx
        have hovx : e.overlaps_with x = false :=
          (List.pairwise_cons.mp (List.pairwise_append.mp hpair).2.1).1 x hx
        have hxb : x.start ≤ b.start :=
          hle x (List.mem_append.mpr (Or.inr (List.mem_cons_of_mem _ hx)))
        unfold TimeBlock.overlaps_with times_overlap at hov hovx ⊢
        unfold blockStartLE at hse
        simp only [Bool.and_eq_true, decide_eq_true_eq] at hov
        simp only [Bool.and_eq_false_iff, decide_eq_false_iff_not, not_lt] at hovx ⊢
        omega
      refine ⟨?_, ?_, ?_⟩
      · rw [List.pairwise_append]
        refine ⟨hpair.sublist hsub, List.pairwise_singleton _ _, ?_⟩
        intro x hx y hy
        simp only [List.mem_singleton] at hy
        subst hy
        rcases List.mem_append.mp hx with h | h
        · exact hl₁ x h
        · exact hl₂ x h
      · rw [List.pairwise_append]
        refine ⟨hsort.sublist hsub, List.pairwise_singleton _ _, ?_⟩
        intro x hx y hy
        simp only [List.mem_singleton] at hy
        subst hy
        exact hle x (hsub.mem hx)
      · intro x hx
        rcases List.mem_append.mp hx with h | h
        · exact Or.inl (hsub.mem h)
        · exact Or.inr (by simpa using h)
    · rw [if_neg hp]
      exact ⟨hpair, hsort, fun x hx => Or.inl hx⟩

theorem fold_resolve : ∀ (l acc : List TimeBlock),
    l.Pairwise blockStartLE →
    acc.Pairwise (fun x y => x.overlaps_with y = false) →
    acc.Pairwise blockStartLE →
    (∀ x ∈ acc, ∀ c ∈ l, x.start ≤ c.start) →
    (l.foldl resolveStep acc).Pairwise (fun x y => x.overlaps_with y = false) := by
  intro l
  induction l with
  | nil =>
    intro acc _ hpair _ _
    simpa using hpair
  | cons b rest ih =>
    intro acc hl hpair hsort hle
    simp only [List.foldl_cons]
    obtain ⟨h1, h2, h3⟩ := resolveStep_invariant acc b hpair hsort
      (fun x hx => hle x hx b (List.mem_cons_self b rest))
    refine ih _ (List.Pairwise.of_cons hl) h1 h2 ?_
    intro x hx c hc
    rcases h3 x hx with hxa | rfl
    · exact hle x hxa c (List.mem_cons_of_mem _ hc)
    · exact (List.pairwise_cons.mp hl).1 c hc

theorem sortByStartPrio_sorted (blocks : List TimeBlock) :
    (sortByStartPrio blocks).Pairwise blockStartLE := by
  have h := List.sorted_insertionSort blockLE blocks
  exact h.imp (fun hab => by unfold blockLE blockStartLE at *; omega)

/-- C1: the output of `resolve_overlaps` under the `priority` strategy never
contains two blocks whose intervals overlap (overlap meaning
`start1 < end2 and start2 < end1`). -/
theorem priority_no_overlap_C1 (blocks out : List TimeBlock)
    (h : resolve_overlaps blocks "priority" = .ok out) :
    out.Pairwise (fun a b => ¬ (times_overlap a.start a.endT b.start b.endT = true)) := by
  unfold resolve_overlaps at h
  by_cases hb : blocks.isEmpty
  · rw [if_pos hb] at h
    injection h with h
    subst h
    exact List.Pairwise.nil
  · rw [if_neg hb, if_neg (by decide), if_pos rfl] at h
    injection h with h
    subst h
    have hfold := fold_resolve (sortByStartPrio blocks) []
      (sortByStartPrio_sorted blocks) List.Pairwise.nil List.Pairwise.nil
      (by intro x hx; simp at hx)
    have hperm := List.perm_insertionSort blockStartLE
      ((sortByStartPrio blocks).foldl resolveStep [])
    have hout := hfold.perm hperm.symm
      (fun {x y} hxy => by rw [overlaps_symm]; exact hxy)
    exact hout.imp (fun {x y} hxy => by
      unfold TimeBlock.overlaps_with at hxy
      simp [hxy])

/-! ## Helper lemmas about the combine strategy and sortedness -/

theorem except_bind_ok {α β : Type} (a : α) (f : α → Except String β) :
    (Except.ok a >>= f) = f a := rfl

theorem except_bind_error {α β : Type} (e : String) (f : α → Except String β) :
    ((Except.error e : Except String α) >>= f) = Except.error e := rfl

theorem foldl_min_start (s : ℤ) (l : List TimeBlock) (h : ∀ x ∈ l, s ≤ x.start) :
    l.foldl (fun acc x => min acc x.start) s = s := by
  induction l generalizing s with
  | nil => rfl
  | cons a t ih =>
    simp only [List.foldl_cons]
    rw [min_eq_left (h a (List.mem_cons_self a t))]
    exact ih s (fun x hx => h x (List.mem_cons_of_mem _ hx))

theorem emitGroup_start (a : TimeBlock) (g' : List TimeBlock) (m : TimeBlock)
    (hsort : ∀ x ∈ g', a.start ≤ x.start)
    (h : emitGroup (a :: g') = .ok m) : m.start = a.start := by
  cases g' with
  | nil =>
    simp only [emitGroup] at h
    injection h with h
    subst h
    rfl
  | cons c t =>
    simp only [emitGroup, merge_blocks, List.isEmpty_cons, Bool.false_eq_true,
      if_false, mkTimeBlock] at h
    cases hg : get_source_priority
        (((c :: t).foldl (fun best x => if best.priority < x.priority then x else best) a).source) with
    | error e =>
      rw [hg] at h
      simp only [Except.map] at h
      cases h
    | ok p =>
      rw [hg] at h
      simp only [Except.map] at h
      injection h with h
      subst h
      exact foldl_min_start a.start (c :: t) hsort

theorem combineGo_sorted : ∀ (rest : List TimeBlock) (a : TimeBlock)
    (g' out : List TimeBlock),
    (a :: (g' ++ rest)).Pairwise blockStartLE →
    combineGo (a :: g') rest = .ok out →
    out.Pairwise (fun x y => x.start ≤ y.start) ∧ ∀ z ∈ out, a.start ≤ z.start := by
  intro rest
  induction rest with
  | nil =>
    intro a g' out hsort h
    simp only [combineGo] at h
    cases hm : emitGroup (a :: g') with
    | error e =>
      rw [hm] at h
      simp [except_bind_error] at h
    | ok m =>
      rw [hm] at h
      simp only [except_bind_ok] at h
      injection h with h
      subst h
      have hm_start : m.start = a.start := emitGroup_start a g' m
        (fun x hx => (List.pairwise_cons.mp hsort).1 x (by simp [hx])) hm
      refine ⟨List.pairwise_singleton _ _, ?_⟩
      intro z hz
      simp only [List.mem_singleton] at hz
      subst hz
      exact le_of_eq hm_start.symm
  | cons b rest' ih =>
    intro a g' out hsort h
    simp only [combineGo] at h
    by_cases hov : (a :: g').any (fun x => b.overlaps_with x) = true
    · rw [if_pos hov] at h
      have hsort' : (a :: ((g' ++ [b]) ++ rest')).Pairwise blockStartLE := by
        have heq : (g' ++ [b]) ++ rest' = g' ++ b :: rest' := by simp
        rw [heq]
        exact hsort
      exact ih a (g' ++ [b]) out hsort' h
    · rw [if_neg hov] at h
      cases hm : emitGroup (a :: g') with
      | error e =>
        rw [hm] at h
        simp [except_bind_error] at h
      | ok m =>
        rw [hm] at h
        simp only [except_bind_ok] at h
        cases hrec : combineGo [b] rest' with
        | error e =>
          rw [hrec] at h
          simp [except_bind_error] at h
        | ok out' =>
          rw [hrec] at h
          simp only [except_bind_ok] at h
          injection h with h
          subst h
          have hsort'' : (b :: ([] ++ rest')).Pairwise blockStartLE := by
            simp only [List.nil_append]
            have hsub : (b :: rest').Sublist (a :: (g' ++ b :: rest')) :=
              List.sublist_cons_of_sublist a (List.sublist_append_right g' _)
            exact hsort.sublist hsub
          obtain ⟨hp', hb'⟩ := ih b [] out' hsort'' hrec
          have hm_start : m.start = a.start := emitGroup_start a g' m
            (fun x hx => (List.pairwise_cons.mp hsort).1 x (by simp [hx])) hm
          have hab : a.start ≤ b.start := (List.pairwise_cons.mp hsort).1 b (by simp)
          refine ⟨List.pairwise_cons.mpr ⟨?_, hp'⟩, ?_⟩
          · intro z hz
            have hz' := hb' z hz
            omega
          · intro z hz
            rcases List.mem_cons.mp hz with rfl | hz'
            · exact le_of_eq hm_start.symm
            · have := hb' z hz'
              omega

/-- C4: for all three strategies, the list returned by `resolve_overlaps` is
sorted in ascending order of block start time. -/
theorem resolve_overlaps_sorted_C4 (blocks : List TimeBlock) (strategy : String)
    (out : List TimeBlock)
    (hstrat : strategy = "priority" ∨ strategy = "show_both" ∨ strategy = "combine")
    (h : resolve_overlaps blocks strategy = .ok out) :
    out.Pairwise (fun a b => a.start ≤ b.start) := by
  unfold resolve_overlaps at h
  by_cases hb : blocks.isEmpty
  · rw [if_pos hb] at h
    injection h with h
    subst h
    exact List.Pairwise.nil
  · rw [if_neg hb] at h
    rcases hstrat with rfl | rfl | rfl
    · rw [if_neg (by decide), if_pos rfl] at h
      injection h with h
      subst h
      exact List.Pairwise.imp (fun hxy => hxy)
        (List.sorted_insertionSort blockStartLE _)
    · rw [if_pos rfl] at h
      injection h with h
      subst h
      exact List.Pairwise.imp (fun hxy => hxy) (sortByStartPrio_sorted blocks)
    · rw [if_neg (by decide), if_neg (by decide), if_pos rfl] at h
      cases hsb : sortByStartPrio blocks with
      | nil =>
        rw [hsb] at h
        injection h with h
        subst h
        exact List.Pairwise.nil
      | cons b0 rest =>
        rw [hsb] at h
        have hs : (b0 :: ([] ++ rest)).Pairwise blockStartLE := by
          have h0 := sortByStartPrio_sorted blocks
          rw [hsb] at h0
          simpa using h0
        exact (combineGo_sorted rest b0 [] out hs h).1

/-! ## Helper lemmas about event conversion -/

theorem except_pure {α : Type} (a : α) : (pure a : Except String α) = Except.ok a := rfl

theorem convert_nil (settings : Settings) :
    convert_to_time_blocks [] settings = .ok [] := rfl

theorem convert_cons_none (e : RawEvent) (rest : List RawEvent)
    (settings : Settings) (h : e.timestamp = none) :
    convert_to_time_blocks (e :: rest) settings =
      convert_to_time_blocks rest settings := by
  obtain ⟨src, tsf, dur, desc, meta⟩ := e
  have h' : tsf = none := h
  subst h'
  rfl

theorem convert_cons_some (e : RawEvent) (rest : List RawEvent)
    (settings : Settings) (ts : ℤ) (h : e.timestamp = some ts) :
    convert_to_time_blocks (e :: rest) settings =
      (if e.duration_minutes ≤ 0 then convert_to_time_blocks rest settings
      else
        (mkTimeBlock ts
          (ts + tdHours (round_to_half_hour e.duration_minutes
            settings.processing.rounding_mode))
          e.source e.description e.metadata) >>= fun block =>
        convert_to_time_blocks rest settings >>= fun blocks =>
        pure (block :: blocks)) := by
  obtain ⟨src, tsf, dur, desc, meta⟩ := e
  have h' : tsf = some ts := h
  subst h'
  rfl

theorem mkTimeBlock_ok {start endT : ℤ} {src desc : String} {meta : Metadata}
    {b : TimeBlock} (h : mkTimeBlock start endT src desc meta = .ok b) :
    b.start = start ∧ b.endT = endT := by
  unfold mkTimeBlock at h
  cases hg : get_source_priority src with
  | error e =>
    rw [hg] at h
    simp only [Except.map] at h
    exact Except.noConfusion h
  | ok p =>
    rw [hg] at h
    simp only [Except.map] at h
    injection h with h
    subst h
    exact ⟨rfl, rfl⟩

theorem round_up_positive (minutes : ℚ) (hpos : 0 < minutes) :
    ∃ k : ℤ, 1 ≤ k ∧ tdHours (round_to_half_hour minutes .up) = k * 1800000000 := by
  simp only [round_to_half_hour]
  exact ⟨pyCeil (minutes / 60 * 2), pyCeil_ge_one (by positivity), tdHours_half _⟩

theorem round_nearest_positive (minutes : ℚ) (h15 : 15 < minutes) :
    ∃ k : ℤ, 1 ≤ k ∧ tdHours (round_to_half_hour minutes .nearest) = k * 1800000000 := by
  simp only [round_to_half_hour]
  exact ⟨pyRound (minutes / 60 * 2), pyRound_ge_one (by linarith), tdHours_half _⟩

/-- C2 (amended): every raw event converted into a block (timestamp parses,
positive duration) yields a block with `start < end` and `end - start` a
positive multiple of 30 minutes when the rounding mode is UP — and, under
NEAREST, when the event's duration exceeds 15 minutes (a 0 < duration ≤ 15
event rounds to zero hours under NEAREST and yields `end = start`). -/
theorem convert_blocks_half_hour_C2 : ∀ (raw_events : List RawEvent)
    (settings : Settings) (out : List TimeBlock),
    convert_to_time_blocks raw_events settings = .ok out →
    (settings.processing.rounding_mode = .up ∨
      ∀ e ∈ raw_events, e.duration_minutes ≤ 0 ∨ 15 < e.duration_minutes) →
    ∀ b ∈ out, b.start < b.endT ∧
      ∃ k : ℤ, 1 ≤ k ∧ b.endT - b.start = k * 1800000000 := by
  intro raw_events
  induction raw_events with
  | nil =>
    intro settings out hconv _
    rw [convert_nil] at hconv
    injection hconv with hconv
    subst hconv
    simp
  | cons e rest ih =>
    intro settings out hconv hmode
    have hmode' : settings.processing.rounding_mode = .up ∨
        ∀ x ∈ rest, x.duration_minutes ≤ 0 ∨ 15 < x.duration_minutes :=
      hmode.imp id (fun hall x hx => hall x (List.mem_cons_of_mem _ hx))
    cases hts : e.timestamp with
    | none =>
      rw [convert_cons_none e rest settings hts] at hconv
      exact ih settings out hconv hmode'
    | some ts =>
      rw [convert_cons_some e rest settings ts hts] at hconv
      by_cases hd : e.duration_minutes ≤ 0
      · rw [if_pos hd] at hconv
        exact ih settings out hconv hmode'
      · rw [if_neg hd] at hconv
        cases hmk : mkTimeBlock ts
            (ts + tdHours (round_to_half_hour e.duration_minutes
              settings.processing.rounding_mode))
            e.source e.description e.metadata with
        | error msg =>
          rw [hmk, except_bind_error] at hconv
          exact Except.noConfusion hconv
        | ok block =>
          rw [hmk, except_bind_ok] at hconv
          cases hrest : convert_to_time_blocks rest settings with
          | error msg =>
            rw [hrest, except_bind_error] at hconv
            exact Except.noConfusion hconv
          | ok blocks =>
            rw [hrest, except_bind_ok, except_pure] at hconv
            injection hconv with hconv
            subst hconv
            intro b hb
            rcases List.mem_cons.mp hb with rfl | hb'
            · obtain ⟨hstart, hend⟩ := mkTimeBlock_ok hmk
              have hdur : ∃ k : ℤ, 1 ≤ k ∧
                  tdHours (round_to_half_hour e.duration_minutes
                    settings.processing.rounding_mode) = k * 1800000000 := by
                rcases hmode with hup | hall
                · rw [hup]
                  exact round_up_positive _ (not_le.mp hd)
                · rcases hall e (List.mem_cons_self e rest) with h0 | h15
                  · exact absurd h0 hd
                  · cases hmc : settings.processing.rounding_mode with
                    | up => exact round_up_positive _ (by linarith)
                    | nearest => exact round_nearest_positive _ h15
              obtain ⟨k, hk1, hk2⟩ := hdur
              rw [hk2] at hend
              constructor
              · rw [hstart, hend]
                omega
              · exact ⟨k, hk1, by rw [hstart, hend]; ring⟩
            · exact ih settings blocks hrest hmode' b hb'

/-- C2 (counterexample): a 10-minute event under NEAREST rounding converts to
a block with `end = start`, refuting `start < end` for the NEAREST mode. -/
theorem convert_blocks_half_hour_C2_counterexample :
    convert_to_time_blocks [⟨"wakatime", some 0, 10, "", []⟩]
        exampleSettingsNearest =
      .ok [⟨0, 0, "wakatime", "", 100, []⟩] ∧
    ¬ ((⟨0, 0, "wakatime", "", 100, []⟩ : TimeBlock).start <
       (⟨0, 0, "wakatime", "", 100, []⟩ : TimeBlock).endT) := by
  have hr : round_to_half_hour 10 RoundingMode.nearest = 0 := by
    simp only [round_to_half_hour]
    rw [show ((10:ℚ) / 60 * 2) = 1/3 by norm_num,
      pyRound_eq_of (z := 0) (by norm_num) (by norm_num)]
    norm_num
  have ht : tdHours (0 : ℚ) = 0 := by
    unfold tdHours
    rw [show ((0:ℚ) * 3600000000) = ((0:ℤ) : ℚ) by norm_num, pyRound_int]
  constructor
  · rw [convert_cons_some _ _ _ 0 rfl, if_neg (by norm_num)]
    show (mkTimeBlock 0 (0 + tdHours (round_to_half_hour 10 RoundingMode.nearest))
      "wakatime" "" [] >>= _) = _
    rw [hr, ht]
    rfl
  · simp

/-! ## Helper lemmas about the fill-up distributions -/

theorem create_fill_eow (hours_to_fill : ℚ) (week_start week_end : ℤ)
    (topic : String) (s : Settings)
    (hs : s.processing.fill_up_distribution = .end_of_week) :
    create_fill_up_blocks hours_to_fill week_start week_end topic s =
      .ok [⟨replaceHMS (week_end - 6 * usPerHour) 12 0 0,
            replaceHMS (week_end - 6 * usPerHour) 12 0 0 + tdHours hours_to_fill,
            "auto_fill", "Development: " ++ topic, 0,
            [("auto_generated", .b true), ("fill_hours", .q hours_to_fill)]⟩] := by
  unfold create_fill_up_blocks
  rw [hs]
  rfl

theorem create_fill_es (hours_to_fill : ℚ) (week_start week_end : ℤ)
    (topic : String) (s : Settings)
    (hs : s.processing.fill_up_distribution = .empty_slots) :
    create_fill_up_blocks hours_to_fill week_start week_end topic s =
      .ok [⟨week_end - tdHours hours_to_fill, week_end,
            "auto_fill", "Development: " ++ topic, 0,
            [("auto_generated", .b true), ("fill_hours", .q hours_to_fill)]⟩] := by
  unfold create_fill_up_blocks
  rw [hs]
  rfl

/-- C3 (amended): under `empty_slots` the fill-up output has the same shape
as under `end_of_week` — exactly one block, with identical source,
description, metadata and duration — but its placement differs:
`end_of_week` anchors the start at 12:00 on the day six hours before
`week_end`, while `empty_slots` ends the block exactly at `week_end`. -/
theorem fill_empty_slots_vs_end_of_week_C3 (hours_to_fill : ℚ)
    (week_start week_end : ℤ) (topic : String) (s1 s2 : Settings)
    (h1 : s1.processing.fill_up_distribution = .end_of_week)
    (h2 : s2.processing.fill_up_distribution = .empty_slots) :
    ∃ b1 b2 : TimeBlock,
      create_fill_up_blocks hours_to_fill week_start week_end topic s1 = .ok [b1] ∧
      create_fill_up_blocks hours_to_fill week_start week_end topic s2 = .ok [b2] ∧
      b1.source = b2.source ∧ b1.description = b2.description ∧
      b1.metadata = b2.metadata ∧ b1.endT - b1.start = b2.endT - b2.start := by
  refine ⟨_, _, create_fill_eow hours_to_fill week_start week_end topic s1 h1,
    create_fill_es hours_to_fill week_start week_end topic s2 h2,
    rfl, rfl, rfl, ?_⟩
  ring

/-- C3 (counterexample): for the week window Monday 2026-01-05 18:00 →
Saturday 2026-01-10 18:00 (epoch Monday 2026-01-05 00:00) with 38.5 hours to
fill, `end_of_week` places the block at Saturday 12:00 while `empty_slots`
places it ending at `week_end`; the starts (and ends) differ, so the fill
blocks are not identical. -/
theorem fill_empty_slots_C3_counterexample :
    create_fill_up_blocks 38.5 64800000000 496800000000 "General"
        exampleSettingsNearest =
      .ok [⟨475200000000, 613800000000, "auto_fill", "Development: General", 0,
            [("auto_generated", .b true), ("fill_hours", .q 38.5)]⟩] ∧
    create_fill_up_blocks 38.5 64800000000 496800000000 "General"
        exampleSettingsEmptySlots =
      .ok [⟨358200000000, 496800000000, "auto_fill", "Development: General", 0,
            [("auto_generated", .b true), ("fill_hours", .q 38.5)]⟩] ∧
    (475200000000 : ℤ) ≠ 358200000000 := by
  have htd : tdHours (38.5 : ℚ) = 138600000000 := by
    unfold tdHours
    rw [show ((38.5:ℚ) * 3600000000) = ((138600000000:ℤ) : ℚ) by norm_num,
      pyRound_int]
  refine ⟨?_, ?_, by norm_num⟩
  · rw [create_fill_eow _ _ _ _ _ rfl, htd]
    norm_num [replaceHMS, dayStart, usPerHour, usPerDay, usPerSecond]
    rfl
  · rw [create_fill_es _ _ _ _ _ rfl, htd]
    norm_num
    rfl

/-! ## Helper lemmas about the pipeline and unknown sources -/

theorem convert_error_of_bad_source : ∀ (raw_events : List RawEvent)
    (settings : Settings),
    (∃ e ∈ raw_events, e.timestamp ≠ none ∧ 0 < e.duration_minutes ∧
      ∃ msg, get_source_priority e.source = .error msg) →
    ∃ msg, convert_to_time_blocks raw_events settings = .error msg := by
  intro raw_events
  induction raw_events with
  | nil =>
    intro settings h
    simp at h
  | cons e rest ih =>
    intro settings h
    obtain ⟨e', he', ht', hd', msg', hmsg'⟩ := h
    rcases List.mem_cons.mp he' with rfl | hmem
    · cases hts : e'.timestamp with
      | none => exact absurd hts ht'
      | some ts =>
        rw [convert_cons_some e' rest settings ts hts, if_neg (not_le.mpr hd')]
        refine ⟨msg', ?_⟩
        have hmk : mkTimeBlock ts
            (ts + tdHours (round_to_half_hour e'.duration_minutes
              settings.processing.rounding_mode))
            e'.source e'.description e'.metadata = .error msg' := by
          unfold mkTimeBlock
          rw [hmsg']
          rfl
        rw [hmk, except_bind_error]
    · obtain ⟨msg, hmsg⟩ := ih settings ⟨e', hmem, ht', hd', msg', hmsg'⟩
      cases hts : e.timestamp with
      | none =>
        rw [convert_cons_none e rest settings hts]
        exact ⟨msg, hmsg⟩
      | some ts =>
        rw [convert_cons_some e rest settings ts hts]
        by_cases hd : e.duration_minutes ≤ 0
        · rw [if_pos hd]
          exact ⟨msg, hmsg⟩
        · rw [if_neg hd]
          cases hmk : mkTimeBlock ts
              (ts + tdHours (round_to_half_hour e.duration_minutes
                settings.processing.rounding_mode))
              e.source e.description e.metadata with
          | error m2 => exact ⟨m2, by rw [except_bind_error]⟩
          | ok b => exact ⟨msg, by simp only [except_bind_ok, hmsg, except_bind_error]⟩

/-- C6: an unknown source (anything outside the six known names) makes the
priority lookup raise; during a pipeline run this is caught at the boundary,
so `process_week` returns a failure result with the error message set instead
of propagating; and the six known sources map to priorities 100, 80, 60, 40,
40 and 0. -/
theorem unknown_source_fatal_C6 :
    (∀ source : String,
      source ∉ ["wakatime", "calendar", "gmail", "github", "cloud_events",
        "auto_fill"] →
      ∃ msg, get_source_priority source = .error msg) ∧
    (get_source_priority "wakatime" = .ok 100 ∧
     get_source_priority "calendar" = .ok 80 ∧
     get_source_priority "gmail" = .ok 60 ∧
     get_source_priority "github" = .ok 40 ∧
     get_source_priority "cloud_events" = .ok 40 ∧
     get_source_priority "auto_fill" = .ok 0) ∧
    (∀ (reference_date : ℤ) (raw_events : List RawEvent) (settings : Settings),
      (∃ e ∈ raw_events, e.timestamp ≠ none ∧ 0 < e.duration_minutes ∧
        ∃ msg, get_source_priority e.source = .error msg) →
      (process_week reference_date raw_events settings).success = false ∧
      (process_week reference_date raw_events settings).error ≠ none) := by
  refine ⟨?_, ⟨rfl, rfl, rfl, rfl, rfl, rfl⟩, ?_⟩
  · intro source hs
    simp only [List.mem_cons, List.not_mem_nil, or_false, not_or] at hs
    refine ⟨"Unknown source: " ++ source, ?_⟩
    unfold get_source_priority
    have hfind : SOURCE_PRIORITIES.find? (fun p => p.1 == source) = none := by
      rw [List.find?_eq_none]
      intro x hx
      simp only [SOURCE_PRIORITIES, List.mem_cons, List.not_mem_nil, or_false] at hx
      rcases hx with rfl | rfl | rfl | rfl | rfl | rfl
      · simp only [beq_iff_eq]
        exact fun hc => hs.1 hc.symm
      · simp only [beq_iff_eq]
        exact fun hc => hs.2.1 hc.symm
      · simp only [beq_iff_eq]
        exact fun hc => hs.2.2.1 hc.symm
      · simp only [beq_iff_eq]
        exact fun hc => hs.2.2.2.1 hc.symm
      · simp only [beq_iff_eq]
        exact fun hc => hs.2.2.2.2.1 hc.symm
      · simp only [beq_iff_eq]
        exact fun hc => hs.2.2.2.2.2 hc.symm
    rw [hfind]
  · intro reference_date raw_events settings hbad
    obtain ⟨msg, hmsg⟩ := convert_error_of_bad_source raw_events settings hbad
    simp only [process_week, hmsg, except_bind_error]
    simp

/-! ## Witnesses -/

theorem priority_no_overlap_C1_witness :
    resolve_overlaps
      [⟨100, 300, "github", "g", 40, []⟩, ⟨150, 350, "wakatime", "w", 100, []⟩,
       ⟨400, 500, "gmail", "m", 60, []⟩] "priority" =
      .ok [⟨150, 350, "wakatime", "w", 100, []⟩,
           ⟨400, 500, "gmail", "m", 60, []⟩] ∧
    List.Pairwise (fun a b => ¬ (times_overlap a.start a.endT b.start b.endT = true))
      [(⟨150, 350, "wakatime", "w", 100, []⟩ : TimeBlock),
       ⟨400, 500, "gmail", "m", 60, []⟩] := by
  have h : resolve_overlaps
      [⟨100, 300, "github", "g", 40, []⟩, ⟨150, 350, "wakatime", "w", 100, []⟩,
       ⟨400, 500, "gmail", "m", 60, []⟩] "priority" =
      .ok [⟨150, 350, "wakatime", "w", 100, []⟩,
           ⟨400, 500, "gmail", "m", 60, []⟩] := by rfl
  exact ⟨h, priority_no_overlap_C1 _ _ h⟩

theorem convert_blocks_half_hour_C2_witness :
    convert_to_time_blocks [⟨"wakatime", some 0, 35, "", []⟩]
        exampleSettingsNearest =
      .ok [⟨0, 1800000000, "wakatime", "", 100, []⟩] ∧
    ∀ b ∈ [(⟨0, 1800000000, "wakatime", "", 100, []⟩ : TimeBlock)],
      b.start < b.endT ∧ ∃ k : ℤ, 1 ≤ k ∧ b.endT - b.start = k * 1800000000 := by
  have hr : round_to_half_hour 35 RoundingMode.nearest = ((1:ℤ) : ℚ) / 2 := by
    simp only [round_to_half_hour]
    rw [show ((35:ℚ) / 60 * 2) = 7/6 by norm_num,
      pyRound_eq_of (z := 1) (by norm_num) (by norm_num)]
  have ht : tdHours (((1:ℤ) : ℚ) / 2) = 1800000000 := by
    rw [tdHours_half]
    norm_num
  have heval : convert_to_time_blocks [⟨"wakatime", some 0, 35, "", []⟩]
      exampleSettingsNearest =
      .ok [⟨0, 1800000000, "wakatime", "", 100, []⟩] := by
    rw [convert_cons_some _ _ _ 0 rfl, if_neg (by norm_num),
      show exampleSettingsNearest.processing.rounding_mode = RoundingMode.nearest
        from rfl, hr, ht]
    rfl
  refine ⟨heval, convert_blocks_half_hour_C2 _ exampleSettingsNearest _ heval
    (Or.inr ?_)⟩
  intro e he
  simp only [List.mem_singleton] at he
  subst he
  right
  norm_num

theorem fill_empty_slots_vs_end_of_week_C3_witness :
    exampleSettingsNearest.processing.fill_up_distribution =
      FillUpDistribution.end_of_week ∧
    exampleSettingsEmptySlots.processing.fill_up_distribution =
      FillUpDistribution.empty_slots ∧
    ∃ b1 b2 : TimeBlock,
      create_fill_up_blocks 38.5 64800000000 496800000000 "General"
        exampleSettingsNearest = .ok [b1] ∧
      create_fill_up_blocks 38.5 64800000000 496800000000 "General"
        exampleSettingsEmptySlots = .ok [b2] ∧
      b1.source = b2.source ∧ b1.description = b2.description ∧
      b1.metadata = b2.metadata ∧ b1.endT - b1.start = b2.endT - b2.start :=
  ⟨rfl, rfl, fill_empty_slots_vs_end_of_week_C3 38.5 64800000000 496800000000
    "General" exampleSettingsNearest exampleSettingsEmptySlots rfl rfl⟩

theorem resolve_overlaps_sorted_C4_witness :
    resolve_overlaps
      [⟨100, 200, "wakatime", "w", 100, []⟩, ⟨150, 250, "github", "g", 40, []⟩]
      "combine" =
      .ok [⟨100, 250, "wakatime", "wakatime: w | github: g", 100,
            [("merged_from", .ls ["wakatime", "github"])]⟩] ∧
    List.Pairwise (fun a b => a.start ≤ b.start)
      [(⟨100, 250, "wakatime", "wakatime: w | github: g", 100,
         [("merged_from", .ls ["wakatime", "github"])]⟩ : TimeBlock)] := by
  have h : resolve_overlaps
      [⟨100, 200, "wakatime", "w", 100, []⟩, ⟨150, 250, "github", "g", 40, []⟩]
      "combine" =
      .ok [⟨100, 250, "wakatime", "wakatime: w | github: g", 100,
            [("merged_from", .ls ["wakatime", "github"])]⟩] := by rfl
  exact ⟨h, resolve_overlaps_sorted_C4 _ _ _ (Or.inr (Or.inr rfl)) h⟩

theorem unknown_source_fatal_C6_witness :
    (process_week 0 [⟨"slack", some 0, 10, "x", []⟩]
      exampleSettingsNearest).success = false ∧
    (process_week 0 [⟨"slack", some 0, 10, "x", []⟩]
      exampleSettingsNearest).error ≠ none :=
  unknown_source_fatal_C6.2.2 0 _ _
    ⟨⟨"slack", some 0, 10, "x", []⟩, by simp, by simp, by norm_num,
      unknown_source_fatal_C6.1 "slack" (by simp)⟩

theorem week_start_idempotent_C7_witness :
    ((0:ℤ) ≤ 0 ∧ (0:ℤ) ≤ 6 ∧ (0:ℤ) ≤ 18 ∧ (18:ℤ) ≤ 23 ∧ (0:ℤ) ≤ 0 ∧
      (0:ℤ) ≤ 59) ∧
    get_work_week_start (get_work_week_start 274020000000 0 18 0) 0 18 0 =
      get_work_week_start 274020000000 0 18 0 :=
  ⟨by decide, week_start_idempotent_C7 274020000000 0 18 0 (by decide)
    (by decide) (by decide) (by decide) (by decide) (by decide)⟩

theorem week_start_previous_week_C8_witness :
    (weekday 36000000000 = 0 ∧
      hourOf 36000000000 * 60 + minuteOf 36000000000 < 18 * 60 + 0) ∧
    (get_work_week_start 36000000000 0 18 0 =
        replaceHMSU 36000000000 18 0 0 0 - 7 * usPerDay ∧
      get_work_week_start 36000000000 0 18 0 < dayStart 36000000000 ∧
      weekday (get_work_week_start 36000000000 0 18 0) = 0) :=
  ⟨⟨by decide, by decide⟩, week_start_previous_week_C8 36000000000 0 18 0
    (by decide) (by decide) (by decide) (by decide) (by decide) (by decide)⟩

theorem auto_fill_noop_C9_witness :
    (exampleSettingsNearest.core.auto_fill_enabled = false ∨
      exampleSettingsNearest.core.target_hours_per_week ≤
        calculate_week_hours [⟨0, 144000000000, "wakatime", "w", 100, []⟩]) ∧
    auto_fill_to_target [⟨0, 144000000000, "wakatime", "w", 100, []⟩]
        64800000000 496800000000 exampleSettingsNearest =
      .ok ([⟨0, 144000000000, "wakatime", "w", 100, []⟩], 0) := by
  have h : exampleSettingsNearest.core.target_hours_per_week ≤
      calculate_week_hours [⟨0, 144000000000, "wakatime", "w", 100, []⟩] := by
    norm_num [calculate_week_hours, exampleSettingsNearest, exampleCore]
  exact ⟨Or.inr h, auto_fill_noop_C9 _ _ _ _ (Or.inr h)⟩

theorem week_end_after_week_start_C10_witness :
    ((0:ℤ) ≤ 5 ∧ (5:ℤ) ≤ 6 ∧ (0:ℤ) ≤ 18 ∧ (18:ℤ) ≤ 23 ∧ (0:ℤ) ≤ 0 ∧
      (0:ℤ) ≤ 59) ∧
    ((1 ≤ days_forward (weekday 64800000000) 5 ∧
        days_forward (weekday 64800000000) 5 ≤ 7) ∧
      64800000000 < get_work_week_end 64800000000 5 18 0 ∧
      fillWorkDays 64800000000 (get_work_week_end 64800000000 5 18 0) ≠ []) :=
  ⟨by decide, week_end_after_week_start_C10 64800000000 5 18 0 (by decide)
    (by decide) (by decide) (by decide) (by decide) (by decide)⟩
